import Mathlib

/-
Verification development for the discord-ai-bot speech services.

The repository exposes speech-to-text and text-to-speech HTTP servers.  The
definitions below are shallow embeddings of the functions the specification's
claims are about:

* `SoftFemaleTTS.preprocess_russian_text` and its helpers embed the text
  normalizer of `soft_female_tts_server.py` (whitespace collapsing, pause
  insertion, abbreviation expansion, digit-run spelling).
* `OptimizedTTS.preprocess_russian_text` embeds the normalizer of
  `local_tts_server_optimized.py` (character filtering, punctuation spacing,
  length truncation).
* `LocalSTT` embeds the language-hint mapping and the model-call arguments of
  `local_stt_server.py`.
* `OptimizedSTT` embeds the guarded inference paths of
  `local_stt_server_optimized.py` (load-time base→tiny fallback, the
  `gpu_memory_manager` context manager, `transcribe_audio`, `generate_speech`).
* `SoftFemaleTTS.enhance_voice_quality` embeds the audio enhancement chain of
  `soft_female_tts_server.py`; the two numeric library calls with no exact
  discrete semantics (`scipy.signal.resample`, `scipy.signal.sosfilt`) are
  abstracted as parameters of a `DSPModel`, and every claim proved about the
  chain holds for all instantiations of those parameters.

Strings are modelled as `List Char`; floating-point samples are modelled as
exact rationals (every IEEE double is rational) up to the final hyperbolic
tangent stage, which is modelled over the reals.
-/

namespace TTSText

/-- Whitespace class of Python's `\s` (space, tab, newline, return, vertical
tab, form feed). -/
def isSpaceChar (c : Char) : Bool :=
  c == ' ' || c == '\t' || c == '\n' || c == '\r' || c == '\x0b' || c == '\x0c'

/-- Word-character class of Python's `\w`, restricted to the scripts the
program handles: ASCII letters and digits, underscore, and the Cyrillic block
U+0400–U+04FF. -/
def isWordChar (c : Char) : Bool :=
  c.isAlpha || c.isDigit || c == '_' || (0x400 ≤ c.toNat && c.toNat ≤ 0x4FF)

/-- Python `str.strip()`: drop leading and trailing whitespace. -/
def pstrip (s : List Char) : List Char :=
  ((s.dropWhile isSpaceChar).reverse.dropWhile isSpaceChar).reverse

/-- Scanner for `re.sub(r'\s+', ' ', ·)`: every maximal whitespace run becomes
one `' '`.  The flag records whether the scanner is inside a whitespace run. -/
def collapseRunsAux : Bool → List Char → List Char
  | _, [] => []
  | inRun, c :: cs =>
    if isSpaceChar c then
      (if inRun then [] else [' ']) ++ collapseRunsAux true cs
    else
      c :: collapseRunsAux false cs

/-- `re.sub(r'\s+', ' ', text.strip())` — line 43 of soft_female_tts_server.py. -/
def collapseWs (s : List Char) : List Char :=
  collapseRunsAux false (pstrip s)

/-- Fuel-indexed scanner for Python `str.replace`: leftmost-first,
non-overlapping, the replacement is not rescanned.  One unit of fuel is spent
per step and each step consumes at least one character, so `fuel = s.length`
always suffices. -/
def replaceAllAux (p r : List Char) : Nat → List Char → List Char
  | 0, s => s
  | _ + 1, [] => []
  | fuel + 1, c :: cs =>
    if p.isPrefixOf (c :: cs) then
      r ++ replaceAllAux p r fuel ((c :: cs).drop p.length)
    else
      c :: replaceAllAux p r fuel cs

/-- Python `s.replace(p, r)` for a non-empty pattern `p` (the empty pattern is
never used by the program and is mapped to the identity). -/
def replaceAll (p r s : List Char) : List Char :=
  if p.isEmpty then s else replaceAllAux p r s.length s

/-- Decimal value of a digit run, as computed by Python `int`. -/
def natVal (s : List Char) : Nat :=
  s.foldl (fun a c => 10 * a + (c.toNat - 48)) 0

/-- Fuel-indexed decimal rendering; `toDec` below supplies enough fuel. -/
def toDecAux : Nat → Nat → List Char
  | 0, _ => []
  | fuel + 1, n =>
    if n < 10 then [Nat.digitChar n]
    else toDecAux fuel (n / 10) ++ [Nat.digitChar (n % 10)]

/-- Python `str` on a natural number: decimal rendering without leading
zeros. -/
def toDec (n : Nat) : List Char :=
  toDecAux (n + 1) n

end TTSText

namespace SoftFemaleTTS

open TTSText

/-- The 0–20 lookup table of `convert_number_to_words`
(soft_female_tts_server.py lines 66–71). -/
def numbersTable : List (Nat × List Char) :=
  [(0, "ноль".toList), (1, "один".toList), (2, "два".toList), (3, "три".toList),
   (4, "четыре".toList), (5, "пять".toList), (6, "шесть".toList),
   (7, "семь".toList), (8, "восемь".toList), (9, "девять".toList),
   (10, "десять".toList), (11, "одиннадцать".toList), (12, "двенадцать".toList),
   (13, "тринадцать".toList), (14, "четырнадцать".toList),
   (15, "пятнадцать".toList), (16, "шестнадцать".toList),
   (17, "семнадцать".toList), (18, "восемнадцать".toList),
   (19, "девятнадцать".toList), (20, "двадцать".toList)]

/-- `convert_number_to_words` (lines 64–72): `numbers.get(num, str(num))`. -/
def convert_number_to_words (num : Nat) : List Char :=
  (numbersTable.lookup num).getD (toDec num)

/-- Output of the regex substitution for one maximal digit run: `\b(\d+)\b` is
replaced iff the run is flanked by non-word characters (or text boundaries);
`prevWord`/`nextWord` say whether the adjacent characters are word
characters. -/
def runOut (prevWord : Bool) (run : List Char) (nextWord : Bool) : List Char :=
  if run.isEmpty then []
  else if prevWord || nextWord then run
  else convert_number_to_words (natVal run)

/-- Scanner for `re.sub(r'\b(\d+)\b', …, text)` (line 60): `prev` is the
word-character status of the previously scanned character, `run` the pending
maximal digit run. -/
def numScan (prev : Bool) (run : List Char) : List Char → List Char
  | [] => runOut prev run false
  | c :: cs =>
    if c.isDigit then numScan prev (run ++ [c]) cs
    else runOut prev run (isWordChar c) ++ c :: numScan (isWordChar c) [] cs

/-- The number-conversion step of `preprocess_russian_text` (line 60). -/
def numConvert (s : List Char) : List Char :=
  numScan false [] s

/-- Pause insertion (lines 46–49): `, . ! ?` each get a space appended, by
sequential `str.replace`. -/
def pauses (s : List Char) : List Char :=
  replaceAll ['?'] ['?', ' ']
    (replaceAll ['!'] ['!', ' ']
      (replaceAll ['.'] ['.', ' ']
        (replaceAll [','] [',', ' '] s)))

/-- The abbreviation table in its source order (lines 52–57). -/
def abbrevTable : List (List Char × List Char) :=
  [("т.д.".toList, "так далее".toList),
   ("т.п.".toList, "тому подобное".toList),
   ("и т.д.".toList, "и так далее".toList),
   ("т.е.".toList, "то есть".toList),
   ("др.".toList, "другой".toList),
   ("г.".toList, "год".toList)]

/-- Abbreviation expansion (lines 52–57): the sequential `str.replace`
applications, in the written order of the source. -/
def abbrevExpand (s : List Char) : List Char :=
  abbrevTable.foldl (fun t e => replaceAll e.1 e.2 t) s

/-- `preprocess_russian_text` (lines 40–62): collapse whitespace, insert
pauses, expand abbreviations, convert digit runs. -/
def preprocess_russian_text (s : List Char) : List Char :=
  numConvert (abbrevExpand (pauses (collapseWs s)))

end SoftFemaleTTS

namespace OptimizedTTS

open TTSText

/-- Characters kept by `re.sub(r'[^\w\s\.,!?;:-]', '', text)`
(local_tts_server_optimized.py line 85). -/
def keepChar (c : Char) : Bool :=
  isWordChar c || isSpaceChar c ||
    (['.', ',', '!', '?', ';', ':', '-'] : List Char).contains c

/-- Line 85: drop every character outside the kept class. -/
def filterChars (s : List Char) : List Char :=
  s.filter keepChar

/-- Scanner for `re.sub(r'([π])\s*', r'\1 ', text)` for a punctuation set `π`:
each punctuation character plus the whitespace run following it becomes the
character plus a single space.  The flag records whether the scanner is
consuming the whitespace run of a match. -/
def punctSpaceAux (pset : List Char) : Bool → List Char → List Char
  | _, [] => []
  | skipping, c :: cs =>
    if skipping && isSpaceChar c then punctSpaceAux pset true cs
    else if pset.contains c then c :: ' ' :: punctSpaceAux pset true cs
    else c :: punctSpaceAux pset false cs

/-- Lines 88–89: the two punctuation-spacing substitutions. -/
def punctSpace (pset : List Char) (s : List Char) : List Char :=
  punctSpaceAux pset false s

/-- Sentence-terminating characters of `re.split(r'[.!?]+', text)`. -/
def isSentPunct (c : Char) : Bool :=
  c == '.' || c == '!' || c == '?'

/-- Scanner for `re.split(r'[.!?]+', text)`: pieces between maximal runs of
sentence punctuation, with empty leading/trailing pieces as in Python.  `cur`
holds the current piece reversed; the flag records whether the scanner is
inside a punctuation run. -/
def splitSentAux : Bool → List Char → List Char → List (List Char)
  | _, cur, [] => [cur.reverse]
  | inRun, cur, c :: cs =>
    if isSentPunct c then
      if inRun then splitSentAux true cur cs
      else cur.reverse :: splitSentAux true [] cs
    else splitSentAux false (c :: cur) cs

/-- Line 95: `re.split(r'[.!?]+', text)`. -/
def splitSent (s : List Char) : List (List Char) :=
  splitSentAux false [] s

/-- Line 98: `text[:500].rsplit(' ', 1)[0]` — everything before the last
space, or the whole string when it has no space. -/
def rsplitCut (s : List Char) : List Char :=
  match s.reverse.dropWhile (fun c => !(c == ' ')) with
  | [] => s
  | _ :: rest => rest.reverse

/-- The configured character budget (line 92). -/
def max_length : Nat := 500

/-- `preprocess_russian_text` of local_tts_server_optimized.py (lines 82–100):
character filtering, punctuation spacing, and length truncation (first three
sentence pieces joined by `". "`, then a cut at the last space before the
budget). -/
def preprocess_russian_text (s : List Char) : List Char :=
  let t := punctSpace [',', ';', ':'] (punctSpace ['.', '!', '?'] (filterChars s))
  if max_length < t.length then
    let t2 := List.intercalate ". ".toList ((splitSent t).take 3)
    if max_length < t2.length then rsplitCut (t2.take max_length) else t2
  else t

end OptimizedTTS

namespace LocalSTT

/-- The language-hint table of local_stt_server.py (lines 39–44): hints mapped
to Whisper language names; `"auto"` maps to `None` (let the model decide). -/
def language_map : List (String × Option String) :=
  [("en", some "english"), ("ru", some "russian"), ("uk", some "ukrainian"),
   ("auto", none)]

/-- Lines 36–47: the request's language hint (absent hints default to `None`)
run through `language_map`; hints not in the table pass through unchanged. -/
def mapLanguage (hint : Option String) : Option String :=
  match hint with
  | none => none
  | some h =>
    match language_map.lookup h with
    | some v => v
    | none => some h

/-- The arguments of the `model.transcribe` call that matter to the claims. -/
structure TranscribeArgs where
  language : Option String
  task : String
deriving DecidableEq

/-- Lines 36–65 of the `transcribe` endpoint: the hint is mapped (and the
mapped value then never used), and the model collaborator is invoked with the
hard-coded literal `language="russian"` (line 56). -/
def transcribeModelArgs (hint : Option String) : TranscribeArgs :=
  let _mapped := mapLanguage hint
  { language := some "russian", task := "transcribe" }

end LocalSTT

namespace OptimizedSTT

/-- Outcome of one call to the model collaborator. -/
inductive AttemptOutcome where
  | success (payload : String)
  | oom
  | failure (msg : String)
deriving DecidableEq

/-- The error surfaced by a guarded inference path. -/
inductive GuardError where
  | resourceExhausted (msg : String)
  | modelError (msg : String)
deriving DecidableEq

/-- Observable actions of a guarded inference path: model invocations and
housekeeping sweeps (`torch.cuda.empty_cache()` + `gc.collect()`). -/
inductive Action where
  | modelCall (model : String)
  | sweep
deriving DecidableEq

/-- `gpu_memory_manager` (local_stt_server_optimized.py lines 49–57 and
local_tts_server_optimized.py lines 72–80): a `try/finally` context manager
whose `finally` block performs one housekeeping sweep, on the success path and
on every failure path alike. -/
def gpu_memory_manager {α : Type} (body : Except GuardError α × List Action) :
    Except GuardError α × List Action :=
  (body.1, body.2 ++ [Action.sweep])

/-- The distinct message raised on resource exhaustion in `transcribe_audio`
(line 81). -/
def oomTranscribeMsg : String :=
  "GPU memory exhausted during transcription. Try shorter audio or restart the service."

/-- Body of `transcribe_audio` (lines 62–84): one model call; on
`torch.cuda.OutOfMemoryError` an extra cleanup sweep runs and the distinct
resource-exhaustion error is raised; any other exception propagates
unchanged. -/
def transcribeBody (collab : AttemptOutcome) :
    Except GuardError String × List Action :=
  match collab with
  | .success t => (.ok t.trim, [.modelCall "loaded"])
  | .oom =>
    (.error (.resourceExhausted oomTranscribeMsg), [.modelCall "loaded", .sweep])
  | .failure m => (.error (.modelError m), [.modelCall "loaded"])

/-- `transcribe_audio` (lines 59–84): the body wrapped in
`gpu_memory_manager`.  There is no retry of any kind on this path. -/
def transcribe_audio (collab : AttemptOutcome) :
    Except GuardError String × List Action :=
  gpu_memory_manager (transcribeBody collab)

/-- The distinct message raised on resource exhaustion in `generate_speech`
(local_tts_server_optimized.py line 134). -/
def oomSpeechMsg : String :=
  "GPU memory exhausted. Try shorter text or restart the service."

/-- Body of `generate_speech` (local_tts_server_optimized.py lines 104–137),
same shape as `transcribeBody`. -/
def speechBody (collab : AttemptOutcome) :
    Except GuardError String × List Action :=
  match collab with
  | .success w => (.ok w, [.modelCall "loaded"])
  | .oom => (.error (.resourceExhausted oomSpeechMsg), [.modelCall "loaded", .sweep])
  | .failure m => (.error (.modelError m), [.modelCall "loaded"])

/-- `generate_speech` (lines 102–137): the body wrapped in
`gpu_memory_manager`. -/
def generate_speech (collab : AttemptOutcome) :
    Except GuardError String × List Action :=
  gpu_memory_manager (speechBody collab)

/-- Load-time fallback of local_stt_server_optimized.py (lines 33–43): try the
primary `"base"` model; on `torch.cuda.OutOfMemoryError` sweep the cache and
retry exactly once with the fallback `"tiny"` model; any second failure
propagates (a second out-of-memory error surfaces as the distinct
resource-exhaustion failure). -/
def loadModelWithFallback (load : String → AttemptOutcome) :
    Except GuardError String × List Action :=
  match load "base" with
  | .success _ => (.ok "base", [.modelCall "base"])
  | .failure m => (.error (.modelError m), [.modelCall "base"])
  | .oom =>
    match load "tiny" with
    | .success _ => (.ok "tiny", [.modelCall "base", .sweep, .modelCall "tiny"])
    | .oom =>
      (.error (.resourceExhausted "CUDA out of memory"),
       [.modelCall "base", .sweep, .modelCall "tiny"])
    | .failure m =>
      (.error (.modelError m), [.modelCall "base", .sweep, .modelCall "tiny"])

/-- Number of model invocations in a trace. -/
def callCount (tr : List Action) : Nat :=
  (tr.filter fun a => match a with | .modelCall _ => true | .sweep => false).length

end OptimizedSTT

namespace SoftFemaleTTS

/-- The two numeric stages of `enhance_voice_quality` with no exact discrete
semantics: `scipy.signal.resample` (Fourier-method resampling to a requested
length) and the order-6 Butterworth low-pass `scipy.signal.sosfilt`
application.  Both are linear maps on the sample sequence; the claims proved
below hold for every instantiation. -/
structure DSPModel where
  resample : List ℚ → Nat → List ℚ
  sosfilt : List ℚ → List ℚ

/-- `np.sign`. -/
def qsign (x : ℚ) : ℚ :=
  if x < 0 then -1 else if 0 < x then 1 else 0

/-- The static compressor of lines 93–99: samples above the 0.6 threshold have
their excess divided by the ratio 4, preserving sign. -/
def compressSample (x : ℚ) : ℚ :=
  if 0.6 < |x| then qsign x * (0.6 + (|x| - 0.6) / 4) else x

/-- The reverb of lines 103–106: when the signal is longer than the delay, a
0.15-scaled copy of the signal is added at the delay offset; earlier samples
and shorter signals are unchanged. -/
def addReverb (delay : Nat) (xs : List ℚ) : List ℚ :=
  if delay < xs.length then
    xs.take delay ++
      List.zipWith (fun a b => a + b * 0.15) (xs.drop delay)
        (xs.take (xs.length - delay))
  else xs

/-- `np.max(np.abs(xs))`, with 0 for the empty list. -/
def maxAbs {α : Type} [LinearOrderedField α] (xs : List α) : α :=
  xs.foldr (fun x m => max |x| m) 0

/-- `enhance_voice_quality` up to and including the peak normalization of line
109 (`reverb / np.max(np.abs(reverb)) * 0.95`).  NumPy raises on an empty
array and produces NaN samples (0/0 division) when the maximum absolute value
is zero; both invalid outcomes are modelled as `none` — line 109 has no guard
of any kind. -/
def enhancePre (m : DSPModel) (sample_rate : Nat) (audio : List ℚ) :
    Option (List ℚ) :=
  let pitched := m.resample audio (Nat.floor ((audio.length : ℚ) / 1.08))
  let filtered := m.sosfilt pitched
  let compressed := filtered.map compressSample
  let delay := Nat.floor ((0.02 : ℚ) * (sample_rate : ℚ))
  let reverb := addReverb delay compressed
  if maxAbs reverb = 0 then none
  else some (reverb.map fun x => x / maxAbs reverb * 0.95)

/-- `enhance_voice_quality` (lines 74–114): the chain above followed by the
soft saturation of line 112, `np.tanh(reverb * 1.2) * 0.8`. -/
noncomputable def enhance_voice_quality (m : DSPModel) (sample_rate : Nat)
    (audio : List ℚ) : Option (List ℝ) :=
  (enhancePre m sample_rate audio).map fun ys =>
    ys.map fun y => Real.tanh ((y : ℝ) * 1.2) * 0.8

/-- The second peak normalization the `synthesize` endpoint applies after
`enhance_voice_quality` (line 157): `audio / np.max(np.abs(audio)) * 0.9`,
again unguarded (invalid outcomes modelled as `none`). -/
noncomputable def synthesizeNormalize (xs : List ℝ) : Option (List ℝ) :=
  if maxAbs xs = 0 then none
  else some (xs.map fun x => x / maxAbs xs * 0.9)

end SoftFemaleTTS

namespace TTSText

/-- Every whitespace character is a plain space immediately followed by a
non-space character (so whitespace is single, interior, and plain; in
particular the last character is not whitespace). -/
def tailClean : List Char → Bool
  | [] => true
  | [c] => !isSpaceChar c
  | c :: d :: rest =>
    (!isSpaceChar c || (c == ' ' && !isSpaceChar d)) && tailClean (d :: rest)

/-- Whitespace-normal form — the "already within whitespace policy" shape the
first normalization step produces: single plain interior spaces only, no
whitespace at either end. -/
def cleanWs (s : List Char) : Bool :=
  match s with
  | [] => true
  | c :: _ => !isSpaceChar c && tailClean s

/-- Word-character status of the last character of `prev ++ w` (used to track
the scanner state of `numScan` across a block of copied characters). -/
def flagAfter (prev : Bool) (w : List Char) : Bool :=
  w.foldl (fun _ c => isWordChar c) prev

/-- The four punctuation characters the pause-insertion step rewrites. -/
def noPunct (s : List Char) : Prop :=
  ∀ c ∈ s, c ∉ ([',', '.', '!', '?'] : List Char)

end TTSText

namespace SoftFemaleTTS

/-- Modelled from the spec's words, for comparison with `abbrevTable`: the
spec asserts the abbreviation replacements are "applied longest-match-first",
i.e. each table entry's pattern is at least as long as the next entry's. -/
def longestFirstOrderSpec : List (List Char × List Char) → Bool
  | [] => true
  | [_] => true
  | a :: b :: rest =>
    decide (b.1.length ≤ a.1.length) && longestFirstOrderSpec (b :: rest)

end SoftFemaleTTS

/-! ## Helper lemmas -/

namespace SoftFemaleTTS

theorem maxAbs_cons {α : Type} [LinearOrderedField α] (x : α) (xs : List α) :
    maxAbs (x :: xs) = max |x| (maxAbs xs) := rfl

theorem maxAbs_nonneg {α : Type} [LinearOrderedField α] (xs : List α) :
    0 ≤ maxAbs xs := by
  induction xs with
  | nil => simp [maxAbs]
  | cons x xs ih => rw [maxAbs_cons]; exact le_max_of_le_right ih

theorem maxAbs_mul_right {α : Type} [LinearOrderedField α] (xs : List α)
    (c : α) (hc : 0 ≤ c) :
    maxAbs (xs.map fun x => x * c) = maxAbs xs * c := by
  induction xs with
  | nil => simp [maxAbs]
  | cons x xs ih =>
    simp only [List.map_cons, maxAbs_cons, ih]
    rw [abs_mul, abs_of_nonneg hc, max_mul_of_nonneg _ _ hc]

theorem maxAbs_eq_zero_of_all_zero {α : Type} [LinearOrderedField α]
    {xs : List α} (h : ∀ x ∈ xs, x = 0) : maxAbs xs = 0 := by
  induction xs with
  | nil => simp [maxAbs]
  | cons x xs ih =>
    rw [maxAbs_cons, h x (by simp), ih fun y hy => h y (by simp [hy])]
    simp

theorem zipWith_replicate_min {α β γ : Type} (f : α → β → γ) (m n : Nat)
    (a : α) (b : β) :
    List.zipWith f (List.replicate m a) (List.replicate n b) =
      List.replicate (min m n) (f a b) := by
  induction m generalizing n with
  | zero => simp
  | succ m ih =>
    cases n with
    | zero => simp
    | succ n => simp [List.replicate_succ, ih, Nat.succ_min_succ]

theorem addReverb_all_zero (d k : Nat) :
    ∀ x ∈ addReverb d (List.replicate k (0 : ℚ)), x = 0 := by
  intro x hx
  unfold addReverb at hx
  by_cases h : d < (List.replicate k (0 : ℚ)).length
  · rw [if_pos h, List.take_replicate, List.drop_replicate, List.length_replicate,
      List.take_replicate, zipWith_replicate_min] at hx
    rcases List.mem_append.1 hx with h1 | h1
    · exact List.eq_of_mem_replicate h1
    · have := List.eq_of_mem_replicate h1
      simpa using this
  · rw [if_neg h] at hx
    exact List.eq_of_mem_replicate hx

theorem abs_tanh_le_one (x : ℝ) : |Real.tanh x| ≤ 1 := by
  rw [Real.tanh_eq_sinh_div_cosh, abs_div, abs_of_pos (Real.cosh_pos x)]
  apply div_le_one_of_le₀ _ (Real.cosh_pos x).le
  rw [abs_le]
  refine ⟨?_, (Real.sinh_lt_cosh x).le⟩
  have h := (Real.sinh_lt_cosh (-x)).le
  rw [Real.sinh_neg, Real.cosh_neg] at h
  linarith

end SoftFemaleTTS

/-! ## Claims -/

/-- Claim C9 (confirmed): for every outcome of the model collaborator, both
guarded inference paths (`transcribe_audio` and `generate_speech`) end their
action trace with a housekeeping sweep — the `finally` block of
`gpu_memory_manager` runs unconditionally on the success path and on every
failure path, so no result or error is returned without the sweep having
run. -/
theorem sweep_runs_on_all_paths :
    ∀ collab : OptimizedSTT.AttemptOutcome,
      (OptimizedSTT.transcribe_audio collab).2.getLast? =
          some OptimizedSTT.Action.sweep ∧
      (OptimizedSTT.generate_speech collab).2.getLast? =
          some OptimizedSTT.Action.sweep := by
  intro collab
  cases collab <;>
    simp [OptimizedSTT.transcribe_audio, OptimizedSTT.generate_speech,
      OptimizedSTT.gpu_memory_manager, OptimizedSTT.transcribeBody,
      OptimizedSTT.speechBody]

/-- Claim C2 (confirmed): the per-request guard `transcribe_audio` performs
exactly one model attempt for every collaborator outcome and surfaces the
distinct resource-exhaustion error when the collaborator reports
out-of-memory (no per-request fallback is configured, so no retry); the
load-time guard, where the fallback `"tiny"` is configured and the active
model is the primary `"base"`, sweeps and downgrades on resource exhaustion
and retries exactly once, never making more than two attempts; when the retry
also exhausts resources the distinct resource-exhaustion error surfaces. -/
theorem inference_guard_retry_policy :
    (∀ collab, OptimizedSTT.callCount (OptimizedSTT.transcribe_audio collab).2 = 1) ∧
    (∀ collab, collab = OptimizedSTT.AttemptOutcome.oom →
      (OptimizedSTT.transcribe_audio collab).1 =
        Except.error (OptimizedSTT.GuardError.resourceExhausted
          OptimizedSTT.oomTranscribeMsg)) ∧
    (∀ load, OptimizedSTT.callCount (OptimizedSTT.loadModelWithFallback load).2 ≤ 2) ∧
    (∀ load, load "base" = OptimizedSTT.AttemptOutcome.oom →
      load "tiny" = OptimizedSTT.AttemptOutcome.oom →
      (OptimizedSTT.loadModelWithFallback load).1 =
        Except.error (OptimizedSTT.GuardError.resourceExhausted "CUDA out of memory") ∧
      (OptimizedSTT.loadModelWithFallback load).2 =
        [OptimizedSTT.Action.modelCall "base", OptimizedSTT.Action.sweep,
         OptimizedSTT.Action.modelCall "tiny"]) ∧
    (∀ load t, load "base" = OptimizedSTT.AttemptOutcome.oom →
      load "tiny" = OptimizedSTT.AttemptOutcome.success t →
      (OptimizedSTT.loadModelWithFallback load).1 = Except.ok "tiny" ∧
      OptimizedSTT.callCount (OptimizedSTT.loadModelWithFallback load).2 = 2) := by
  refine ⟨?_, ?_, ?_, ?_, ?_⟩
  · intro collab
    cases collab <;>
      simp [OptimizedSTT.transcribe_audio, OptimizedSTT.gpu_memory_manager,
        OptimizedSTT.transcribeBody, OptimizedSTT.callCount]
  · rintro _ rfl
    simp [OptimizedSTT.transcribe_audio, OptimizedSTT.gpu_memory_manager,
      OptimizedSTT.transcribeBody]
  · intro load
    rcases h1 : load "base" with _ | _ | m
    · simp [OptimizedSTT.loadModelWithFallback, OptimizedSTT.callCount, h1]
    · rcases h2 : load "tiny" with _ | _ | m2 <;>
        simp [OptimizedSTT.loadModelWithFallback, OptimizedSTT.callCount, h1, h2]
    · simp [OptimizedSTT.loadModelWithFallback, OptimizedSTT.callCount, h1]
  · intro load h1 h2
    simp [OptimizedSTT.loadModelWithFallback, h1, h2]
  · intro load t h1 h2
    simp [OptimizedSTT.loadModelWithFallback, OptimizedSTT.callCount, h1, h2]

/-- Witness for C2 at the always-out-of-memory collaborator. -/
theorem inference_guard_retry_policy_witness :
    OptimizedSTT.callCount
      (OptimizedSTT.transcribe_audio OptimizedSTT.AttemptOutcome.oom).2 = 1 ∧
    (OptimizedSTT.transcribe_audio OptimizedSTT.AttemptOutcome.oom).1 =
      Except.error (OptimizedSTT.GuardError.resourceExhausted
        OptimizedSTT.oomTranscribeMsg) ∧
    (OptimizedSTT.loadModelWithFallback fun _ => OptimizedSTT.AttemptOutcome.oom).1 =
      Except.error (OptimizedSTT.GuardError.resourceExhausted "CUDA out of memory") :=
  ⟨inference_guard_retry_policy.1 _,
   inference_guard_retry_policy.2.1 _ rfl,
   (inference_guard_retry_policy.2.2.2.1 _ rfl rfl).1⟩

/-- Claim C4 counterexample: with the language hint `"auto"` the model
collaborator is not invoked with a null language — the `model.transcribe`
call hard-codes `language="russian"`. -/
theorem auto_hint_not_passed_as_null :
    (LocalSTT.transcribeModelArgs (some "auto")).language ≠ none := by
  simp [LocalSTT.transcribeModelArgs]

/-- Claim C4 (corrected): the endpoint computes the hint mapping exactly as
the claim describes (recognized hints `en`/`ru`/`uk` map to Whisper names,
`"auto"` maps to null, unrecognized hints pass through unchanged), but the
mapped value is then unused — the model collaborator is always invoked with
the fixed literal language `"russian"`, for every hint including `"auto"`. -/
theorem language_arg_always_russian :
    (∀ hint, (LocalSTT.transcribeModelArgs hint).language = some "russian") ∧
    LocalSTT.mapLanguage (some "auto") = none ∧
    LocalSTT.mapLanguage (some "en") = some "english" ∧
    LocalSTT.mapLanguage (some "ru") = some "russian" ∧
    LocalSTT.mapLanguage (some "uk") = some "ukrainian" ∧
    LocalSTT.mapLanguage none = none ∧
    ∀ h, LocalSTT.language_map.lookup h = none →
      LocalSTT.mapLanguage (some h) = some h := by
  refine ⟨fun hint => rfl,
    by simp [LocalSTT.mapLanguage, LocalSTT.language_map, List.lookup],
    by simp [LocalSTT.mapLanguage, LocalSTT.language_map, List.lookup],
    by simp [LocalSTT.mapLanguage, LocalSTT.language_map, List.lookup],
    by simp [LocalSTT.mapLanguage, LocalSTT.language_map, List.lookup],
    rfl, fun h hh => ?_⟩
  simp [LocalSTT.mapLanguage, hh]

/-- Witness for C4 at the unrecognized hint `"de"`. -/
theorem language_arg_always_russian_witness :
    (LocalSTT.transcribeModelArgs (some "de")).language = some "russian" ∧
    LocalSTT.mapLanguage (some "de") = some "de" :=
  ⟨language_arg_always_russian.1 _,
   language_arg_always_russian.2.2.2.2.2.2 "de" (by simp [LocalSTT.language_map])⟩

/-- Claim C5 counterexample: the abbreviation table, in its application
order, is not sorted longest-match-first — the entry `'и т.д.'` (six
characters) is applied only after the four-character entry `'т.д.'` that it
contains. -/
theorem abbrev_table_not_longest_first :
    SoftFemaleTTS.longestFirstOrderSpec SoftFemaleTTS.abbrevTable = false := by
  decide

/-- Claim C5 (corrected): the table is applied in its written order, in which
the entry `'т.д.'` (index 0) precedes the longer entry `'и т.д.'` (index 2)
that strictly contains it, so on the text `'и т.д.'` the shorter entry
performs the replacement first; the final result nonetheless coincides with
the full longest-match expansion `'и так далее'`. -/
theorem abbrev_order_and_result :
    (SoftFemaleTTS.abbrevTable[0]?.map Prod.fst = some "т.д.".toList ∧
     SoftFemaleTTS.abbrevTable[2]?.map Prod.fst = some "и т.д.".toList ∧
     "т.д.".toList <:+: "и т.д.".toList ∧
     "т.д.".toList.length < "и т.д.".toList.length) ∧
    TTSText.replaceAll "т.д.".toList "так далее".toList "и т.д.".toList =
      "и так далее".toList ∧
    SoftFemaleTTS.abbrevExpand "и т.д.".toList = "и так далее".toList := by
  refine ⟨⟨rfl, rfl, ?_, by decide⟩, by decide, by decide⟩
  exact ⟨"и ".toList, [], by decide⟩

/-- Claim C10 (confirmed): for every non-silent enhanced waveform, the second
peak normalization the `synthesize` endpoint applies after
`enhance_voice_quality` (division by the maximum absolute value, then the
0.9 scale) produces a waveform whose peak magnitude is exactly 0.9 — not the
0.8 post-saturation ceiling of the enhancement stage itself. -/
theorem synthesize_second_normalization_peak (xs : List ℝ)
    (h : SoftFemaleTTS.maxAbs xs ≠ 0) :
    (SoftFemaleTTS.synthesizeNormalize xs).isSome ∧
      SoftFemaleTTS.maxAbs ((SoftFemaleTTS.synthesizeNormalize xs).getD []) =
        0.9 := by
  have hpos : 0 < SoftFemaleTTS.maxAbs xs :=
    lt_of_le_of_ne (SoftFemaleTTS.maxAbs_nonneg xs) (Ne.symm h)
  rw [SoftFemaleTTS.synthesizeNormalize, if_neg h]
  refine ⟨rfl, ?_⟩
  have hfun : (fun x : ℝ => x / SoftFemaleTTS.maxAbs xs * 0.9) =
      fun x : ℝ => x * (0.9 / SoftFemaleTTS.maxAbs xs) := by
    funext x; ring
  rw [Option.getD_some, hfun,
    SoftFemaleTTS.maxAbs_mul_right _ _ (by positivity),
    mul_div_cancel₀ _ h]

/-- Witness for C10 at the waveform `[2]`. -/
theorem synthesize_second_normalization_peak_witness :
    (SoftFemaleTTS.synthesizeNormalize [2]).isSome ∧
      SoftFemaleTTS.maxAbs ((SoftFemaleTTS.synthesizeNormalize [2]).getD []) =
        0.9 :=
  synthesize_second_normalization_peak [2]
    (by rw [SoftFemaleTTS.maxAbs_cons]; norm_num [SoftFemaleTTS.maxAbs])

/-- Claim C7 (confirmed): every sample of a waveform returned by
`enhance_voice_quality` has absolute magnitude at most 0.8 — the final
`np.tanh(x * 1.2) * 0.8` saturation bounds every output sample below true
clipping, for every input waveform and every instantiation of the abstract
resampling and filtering stages.  (The one input class on which `enhance`
returns no valid waveform at all — a signal that is identically zero at the
normalization stage, where the unguarded division produces NaN — is claim
C1's subject.) -/
theorem enhance_output_bounded (m : SoftFemaleTTS.DSPModel) (rate : Nat)
    (audio : List ℚ) (x : ℝ)
    (hx : x ∈ (SoftFemaleTTS.enhance_voice_quality m rate audio).getD []) :
    |x| ≤ 0.8 := by
  rw [SoftFemaleTTS.enhance_voice_quality] at hx
  cases h : SoftFemaleTTS.enhancePre m rate audio with
  | none => rw [h] at hx; simp at hx
  | some ys =>
    rw [h] at hx
    simp only [Option.map_some', Option.getD_some] at hx
    obtain ⟨y, -, rfl⟩ := List.mem_map.1 hx
    rw [abs_mul]
    calc |Real.tanh ((y : ℝ) * 1.2)| * |(0.8 : ℝ)| ≤ 1 * |(0.8 : ℝ)| :=
          mul_le_mul_of_nonneg_right (SoftFemaleTTS.abs_tanh_le_one _)
            (abs_nonneg _)
    _ = 0.8 := by rw [one_mul, abs_of_nonneg]; norm_num

/-- The reverb delay used at 22050 Hz: `int(0.02 * 22050) = 441`. -/
theorem delay_at_22050 : Nat.floor ((0.02 : ℚ) * ((22050 : Nat) : ℚ)) = 441 := by
  have h : (0.02 : ℚ) * ((22050 : Nat) : ℚ) = 441 := by norm_num
  rw [h]
  exact_mod_cast Nat.floor_natCast (α := ℚ) 441

/-- Witness for C7: the chain evaluated at the one-sample waveform `[1]` with
the identity resampling/filter stages. -/
theorem enhance_output_bounded_witness :
    |Real.tanh (((0.95 : ℚ) : ℝ) * 1.2) * 0.8| ≤ 0.8 := by
  apply enhance_output_bounded ⟨fun xs _ => xs, fun xs => xs⟩ 22050 [1]
  have hpre : SoftFemaleTTS.enhancePre ⟨fun xs _ => xs, fun xs => xs⟩ 22050 [1] =
      some [(0.95 : ℚ)] := by
    have hc : SoftFemaleTTS.compressSample 1 = 0.7 := by
      rw [SoftFemaleTTS.compressSample, if_pos (by norm_num),
        SoftFemaleTTS.qsign, if_neg (by norm_num), if_pos (by norm_num)]
      norm_num
    have hrev : SoftFemaleTTS.addReverb 441 [(0.7 : ℚ)] = [0.7] := by
      rw [SoftFemaleTTS.addReverb, if_neg (by simp)]
    have hm : SoftFemaleTTS.maxAbs [(0.7 : ℚ)] = 0.7 := by
      rw [SoftFemaleTTS.maxAbs_cons]
      norm_num [SoftFemaleTTS.maxAbs]
    simp only [SoftFemaleTTS.enhancePre, List.map_cons, List.map_nil, hc,
      delay_at_22050, hrev, hm]
    rw [if_neg (by norm_num)]
    norm_num
  rw [SoftFemaleTTS.enhance_voice_quality, hpre]
  simp

/-- Claim C1 (code_bug): `enhance_voice_quality` has no guard at its peak
normalization — on an all-silent input every stage up to the reverb is zero
(the abstract resampling and filtering stages are linear in the source, so
they map zero to zero, which is required here as a hypothesis), the maximum
absolute value is 0, and line 109 divides by it, producing NaN samples
(modelled as `none`) instead of returning the signal unchanged. -/
theorem enhance_silent_input_invalid (m : SoftFemaleTTS.DSPModel)
    (hres : ∀ n k, m.resample (List.replicate n 0) k = List.replicate k 0)
    (hfil : ∀ n, m.sosfilt (List.replicate n 0) = List.replicate n 0)
    (n : Nat) :
    SoftFemaleTTS.enhance_voice_quality m 22050 (List.replicate n 0) = none := by
  rw [SoftFemaleTTS.enhance_voice_quality, SoftFemaleTTS.enhancePre]
  simp only [List.length_replicate, hres, hfil, List.map_replicate]
  have hc : SoftFemaleTTS.compressSample 0 = 0 := by
    rw [SoftFemaleTTS.compressSample, if_neg (by norm_num)]
  rw [hc]
  rw [if_pos (SoftFemaleTTS.maxAbs_eq_zero_of_all_zero
    (SoftFemaleTTS.addReverb_all_zero _ _))]
  rfl

/-- Witness for C1 at the two-sample silent waveform. -/
theorem enhance_silent_input_invalid_witness :
    SoftFemaleTTS.enhance_voice_quality ⟨fun _ k => List.replicate k 0, fun xs => xs⟩
      22050 (List.replicate 2 0) = none :=
  enhance_silent_input_invalid ⟨fun _ k => List.replicate k 0, fun xs => xs⟩
    (fun _ _ => rfl) (fun _ => rfl) 2

theorem rsplitCut_length_le (s : List Char) :
    (OptimizedTTS.rsplitCut s).length ≤ s.length := by
  rw [OptimizedTTS.rsplitCut]
  cases h : s.reverse.dropWhile (fun c => !(c == ' ')) with
  | nil => exact le_refl _
  | cons a rest =>
    have h1 : (a :: rest).length ≤ s.reverse.length := by
      rw [← h]; exact (List.dropWhile_suffix _).length_le
    simp only [List.length_cons, List.length_reverse] at h1 ⊢
    omega

set_option maxRecDepth 10000 in
/-- Claim C6 counterexample: the soft-female variant's normalize has no
length enforcement at all — on an input of 501 letters it returns 501
characters, exceeding the configured 500-character budget. -/
theorem soft_normalize_exceeds_budget :
    500 < (SoftFemaleTTS.preprocess_russian_text (List.replicate 501 'a')).length := by
  decide

set_option maxRecDepth 10000 in
/-- Claim C6 (corrected): only the optimized variant bounds its output —
`OptimizedTTS.preprocess_russian_text` never returns more than the
500-character budget (when over budget it keeps the first three sentence
pieces and otherwise cuts at the last space within the first 500 characters,
falling back to a hard cut when no space exists there); the soft-female
variant's normalize enforces no maximum and returns all 501 characters of a
501-letter input. -/
theorem normalize_length_budget :
    (∀ s, (OptimizedTTS.preprocess_russian_text s).length ≤
      OptimizedTTS.max_length) ∧
    (SoftFemaleTTS.preprocess_russian_text (List.replicate 501 'a')).length = 501 := by
  constructor
  · intro s
    simp only [OptimizedTTS.preprocess_russian_text]
    split
    · split
      · refine le_trans (rsplitCut_length_le _) ?_
        simp
      · next h2 => exact Nat.le_of_not_lt h2
    · next h1 => exact Nat.le_of_not_lt h1
  · decide

theorem numScan_cons_digit {c : Char} (h : c.isDigit) (prev : Bool)
    (run cs : List Char) :
    SoftFemaleTTS.numScan prev run (c :: cs) =
      SoftFemaleTTS.numScan prev (run ++ [c]) cs := by
  simp [SoftFemaleTTS.numScan, h]

theorem numScan_cons_nondigit {c : Char} (h : ¬c.isDigit) (prev : Bool)
    (run cs : List Char) :
    SoftFemaleTTS.numScan prev run (c :: cs) =
      SoftFemaleTTS.runOut prev run (TTSText.isWordChar c) ++
        c :: SoftFemaleTTS.numScan (TTSText.isWordChar c) [] cs := by
  simp [SoftFemaleTTS.numScan, h]

theorem numScan_digits_append {ds : List Char} (hds : ∀ d ∈ ds, d.isDigit)
    (prev : Bool) (run t : List Char) :
    SoftFemaleTTS.numScan prev run (ds ++ t) =
      SoftFemaleTTS.numScan prev (run ++ ds) t := by
  induction ds generalizing run with
  | nil => simp
  | cons d ds ih =>
    rw [List.cons_append, numScan_cons_digit (hds d (by simp)),
      ih (fun x hx => hds x (by simp [hx]))]
    simp

theorem digitChar_toNat : ∀ k < 10, (Nat.digitChar k).toNat = 48 + k := by decide

theorem digitChar_isDigit : ∀ k < 10, (Nat.digitChar k).isDigit = true := by decide

theorem natVal_append_digit (xs : List Char) (d : Char) :
    TTSText.natVal (xs ++ [d]) = 10 * TTSText.natVal xs + (d.toNat - 48) := by
  simp [TTSText.natVal, List.foldl_append]

theorem toDecAux_spec :
    ∀ fuel n, n < fuel →
      TTSText.natVal (TTSText.toDecAux fuel n) = n ∧
      TTSText.toDecAux fuel n ≠ [] ∧
      ∀ c ∈ TTSText.toDecAux fuel n, c.isDigit := by
  intro fuel
  induction fuel with
  | zero => omega
  | succ fuel ih =>
    intro n hn
    by_cases h10 : n < 10
    · rw [TTSText.toDecAux, if_pos h10]
      refine ⟨?_, by simp, ?_⟩
      · simp [TTSText.natVal, digitChar_toNat n h10]
      · intro c hc
        rw [List.mem_singleton] at hc
        subst hc
        exact digitChar_isDigit n h10
    · have hdiv : n / 10 < fuel := by
        have := Nat.div_lt_self (by omega : 0 < n) (by norm_num : 1 < 10)
        omega
      obtain ⟨ihv, ihne, ihd⟩ := ih (n / 10) hdiv
      rw [TTSText.toDecAux, if_neg h10]
      refine ⟨?_, by simp, ?_⟩
      · rw [natVal_append_digit, ihv, digitChar_toNat (n % 10) (Nat.mod_lt n (by norm_num))]
        omega
      · intro c hc
        rcases List.mem_append.1 hc with hc | hc
        · exact ihd c hc
        · rw [List.mem_singleton] at hc
          subst hc
          exact digitChar_isDigit (n % 10) (Nat.mod_lt n (by norm_num))

theorem toDec_natVal (n : Nat) : TTSText.natVal (TTSText.toDec n) = n :=
  (toDecAux_spec (n + 1) n (by omega)).1

theorem toDec_ne_nil (n : Nat) : TTSText.toDec n ≠ [] :=
  (toDecAux_spec (n + 1) n (by omega)).2.1

theorem toDec_digits (n : Nat) : ∀ c ∈ TTSText.toDec n, c.isDigit :=
  (toDecAux_spec (n + 1) n (by omega)).2.2

theorem lookup_none_of_keys_ne {l : List (Nat × List Char)} (n : Nat)
    (h : ∀ p ∈ l, p.1 ≠ n) : l.lookup n = none := by
  induction l with
  | nil => rfl
  | cons p t ih =>
    have hb : (n == p.1) = false := by
      simp only [beq_eq_false_iff_ne]
      exact fun he => (h p (by simp)) he.symm
    simp only [List.lookup, hb]
    exact ih fun q hq => h q (by simp [hq])

theorem numbersTable_keys_le : ∀ p ∈ SoftFemaleTTS.numbersTable, p.1 ≤ 20 := by
  decide

theorem numbersTable_lookup_gt {n : Nat} (h : 20 < n) :
    SoftFemaleTTS.numbersTable.lookup n = none :=
  lookup_none_of_keys_ne n fun p hp => by
    have := numbersTable_keys_le p hp
    omega

theorem convert_gt20 {n : Nat} (h : 20 < n) :
    SoftFemaleTTS.convert_number_to_words n = TTSText.toDec n := by
  rw [SoftFemaleTTS.convert_number_to_words, numbersTable_lookup_gt h,
    Option.getD_none]

theorem numConvert_digit_run {ds : List Char} (hne : ds ≠ [])
    (hds : ∀ d ∈ ds, d.isDigit) :
    SoftFemaleTTS.numConvert ds =
      SoftFemaleTTS.convert_number_to_words (TTSText.natVal ds) := by
  have h := numScan_digits_append hds false [] []
  rw [List.append_nil, List.nil_append] at h
  rw [SoftFemaleTTS.numConvert, h, SoftFemaleTTS.numScan,
    SoftFemaleTTS.runOut, if_neg (by simpa using hne), if_neg (by simp)]

/-- Claim C8 counterexample: on the normalized text `"021"` (one maximal
digit run, value 21, outside the 0–20 table) the conversion step does not
pass the run through unchanged — `str(int("021"))` strips the leading zero,
yielding `"21"`. -/
theorem number_run_leading_zeros_changed :
    SoftFemaleTTS.preprocess_russian_text "021".toList ≠ "021".toList := by
  decide

/-- Claim C8 (corrected): the number-conversion step rewrites only maximal
digit runs that are word-isolated (flanked by non-word characters or text
boundaries, the `\b` anchors of the regex).  An isolated run whose value is
in the 0–20 table becomes the table's spelled-out word; an isolated run whose
value is outside the table is replaced by the decimal rendering of its value
— which strips leading zeros rather than leaving the run verbatim (explicit
fallback, not an error); a digit run adjacent to a word character (e.g. a
letter) is left untouched, even when its value is in the table. -/
theorem number_conversion_isolated_runs :
    (∀ (ds w : List Char), ds ≠ [] → (∀ d ∈ ds, d.isDigit) →
      SoftFemaleTTS.numbersTable.lookup (TTSText.natVal ds) = some w →
      SoftFemaleTTS.numConvert ds = w) ∧
    (∀ ds : List Char, ds ≠ [] → (∀ d ∈ ds, d.isDigit) →
      20 < TTSText.natVal ds →
      SoftFemaleTTS.numConvert ds = TTSText.toDec (TTSText.natVal ds)) ∧
    (∀ (c : Char) (ds : List Char), TTSText.isWordChar c → ¬c.isDigit →
      (∀ d ∈ ds, d.isDigit) →
      SoftFemaleTTS.numConvert (c :: ds) = c :: ds) := by
  refine ⟨?_, ?_, ?_⟩
  · intro ds w hne hds hw
    rw [numConvert_digit_run hne hds, SoftFemaleTTS.convert_number_to_words, hw,
      Option.getD_some]
  · intro ds hne hds hgt
    rw [numConvert_digit_run hne hds, convert_gt20 hgt]
  · intro c ds hw hnd hds
    rw [SoftFemaleTTS.numConvert, numScan_cons_nondigit hnd,
      SoftFemaleTTS.runOut, if_pos (by simp), hw]
    have h := numScan_digits_append hds true [] []
    rw [List.append_nil, List.nil_append] at h
    rw [h, SoftFemaleTTS.numScan, SoftFemaleTTS.runOut]
    cases ds with
    | nil => simp
    | cons d ds => simp

/-- Witness for C8: the in-table run `"5"`, the out-of-table run `"21"`, and
the letter-adjacent run in `"x5"`. -/
theorem number_conversion_isolated_runs_witness :
    SoftFemaleTTS.numConvert ['5'] = "пять".toList ∧
    SoftFemaleTTS.numConvert ['2', '1'] = TTSText.toDec (TTSText.natVal ['2', '1']) ∧
    SoftFemaleTTS.numConvert ['x', '5'] = ['x', '5'] :=
  ⟨number_conversion_isolated_runs.1 ['5'] "пять".toList (by decide) (by decide)
      (by decide),
   number_conversion_isolated_runs.2.1 ['2', '1'] (by decide) (by decide)
      (by decide),
   number_conversion_isolated_runs.2.2 'x' ['5'] (by decide) (by decide)
      (by decide)⟩

theorem replaceAllAux_of_not_infix (p r : List Char) :
    ∀ (fuel : Nat) (s : List Char), ¬ p <:+: s →
      TTSText.replaceAllAux p r fuel s = s := by
  intro fuel
  induction fuel with
  | zero => intro s _; rfl
  | succ fuel ih =>
    intro s hs
    match s with
    | [] => rfl
    | c :: cs =>
      have hpre : p.isPrefixOf (c :: cs) = false := by
        rw [Bool.eq_false_iff]
        intro hp
        exact hs (List.isPrefixOf_iff_prefix.1 hp).isInfix
      simp only [TTSText.replaceAllAux, hpre, Bool.false_eq_true, if_false]
      exact congrArg (c :: ·) (ih cs fun h => hs (List.infix_cons h))

theorem replaceAll_of_not_infix (p r s : List Char) (hs : ¬ p <:+: s) :
    TTSText.replaceAll p r s = s := by
  rw [TTSText.replaceAll]
  split
  · rfl
  · exact replaceAllAux_of_not_infix p r s.length s hs

theorem not_infix_of_not_mem {p s : List Char} {c : Char} (hc : c ∈ p)
    (hs : c ∉ s) : ¬ p <:+: s :=
  fun h => hs (h.sublist.subset hc)

theorem pauses_id {s : List Char} (h : TTSText.noPunct s) :
    SoftFemaleTTS.pauses s = s := by
  have h1 : TTSText.replaceAll [','] [',', ' '] s = s :=
    replaceAll_of_not_infix _ _ _
      (not_infix_of_not_mem (by simp) fun hm => h ',' hm (by simp))
  have h2 : TTSText.replaceAll ['.'] ['.', ' '] s = s :=
    replaceAll_of_not_infix _ _ _
      (not_infix_of_not_mem (by simp) fun hm => h '.' hm (by simp))
  have h3 : TTSText.replaceAll ['!'] ['!', ' '] s = s :=
    replaceAll_of_not_infix _ _ _
      (not_infix_of_not_mem (by simp) fun hm => h '!' hm (by simp))
  have h4 : TTSText.replaceAll ['?'] ['?', ' '] s = s :=
    replaceAll_of_not_infix _ _ _
      (not_infix_of_not_mem (by simp) fun hm => h '?' hm (by simp))
  rw [SoftFemaleTTS.pauses, h1, h2, h3, h4]

theorem abbrevExpand_id {s : List Char} (h : TTSText.noPunct s) :
    SoftFemaleTTS.abbrevExpand s = s := by
  have hdot : '.' ∉ s := fun hm => h '.' hm (by simp)
  have hrep : ∀ p₂ r₂ : List Char, '.' ∈ p₂ → TTSText.replaceAll p₂ r₂ s = s :=
    fun p₂ r₂ hp => replaceAll_of_not_infix _ _ _ (not_infix_of_not_mem hp hdot)
  simp only [SoftFemaleTTS.abbrevExpand, SoftFemaleTTS.abbrevTable, List.foldl_cons,
    List.foldl_nil]
  rw [hrep _ _ (by decide), hrep _ _ (by decide), hrep _ _ (by decide),
    hrep _ _ (by decide), hrep _ _ (by decide), hrep _ _ (by decide)]

theorem tailClean_cons {c : Char} {l : List Char}
    (h : TTSText.tailClean (c :: l) = true) : TTSText.tailClean l = true := by
  cases l with
  | nil => rfl
  | cons d rest =>
    rw [TTSText.tailClean, Bool.and_eq_true] at h
    exact h.2

theorem tailClean_suffix {t u : List Char} (ht : TTSText.tailClean t = true)
    (hu : u <:+ t) : TTSText.tailClean u = true := by
  induction t with
  | nil => rw [List.suffix_nil.1 hu]; rfl
  | cons c cs ih =>
    rcases List.suffix_cons_iff.1 hu with rfl | hu
    · exact ht
    · exact ih (tailClean_cons ht) hu

theorem tailClean_getLast {t : List Char} (ht : TTSText.tailClean t = true) :
    ∀ c, t.getLast? = some c → TTSText.isSpaceChar c = false := by
  induction t with
  | nil => intro c hc; simp at hc
  | cons a l ih =>
    intro c hc
    cases l with
    | nil =>
      simp only [List.getLast?_singleton, Option.some.injEq] at hc
      subst hc
      simpa [TTSText.tailClean] using ht
    | cons b l' =>
      rw [List.getLast?_cons_cons] at hc
      exact ih (tailClean_cons ht) c hc

theorem tailClean_head_space {c d : Char} {l : List Char}
    (h : TTSText.tailClean (c :: d :: l) = true)
    (hc : TTSText.isSpaceChar c = true) :
    c = ' ' ∧ TTSText.isSpaceChar d = false := by
  rw [TTSText.tailClean, Bool.and_eq_true, Bool.or_eq_true] at h
  rcases h.1 with h1 | h1
  · rw [Bool.not_eq_eq_eq_not, Bool.not_true] at h1
    rw [h1] at hc
    cases hc
  · rw [Bool.and_eq_true, beq_iff_eq] at h1
    exact ⟨h1.1, by rw [Bool.not_eq_eq_eq_not, Bool.not_true] at h1; exact h1.2⟩

theorem collapseRunsAux_nil (b : Bool) : TTSText.collapseRunsAux b [] = [] := rfl

theorem collapseRunsAux_space {c : Char} (h : TTSText.isSpaceChar c = true)
    (b : Bool) (cs : List Char) :
    TTSText.collapseRunsAux b (c :: cs) =
      (if b then [] else [' ']) ++ TTSText.collapseRunsAux true cs := by
  simp [TTSText.collapseRunsAux, h]

theorem collapseRunsAux_nonspace {c : Char} (h : TTSText.isSpaceChar c = false)
    (b : Bool) (cs : List Char) :
    TTSText.collapseRunsAux b (c :: cs) =
      c :: TTSText.collapseRunsAux false cs := by
  simp [TTSText.collapseRunsAux, h]

theorem collapseRunsAux_id_of_clean :
    ∀ t : List Char, TTSText.tailClean t = true →
      TTSText.collapseRunsAux false t = t := by
  intro t
  induction t with
  | nil => intro _; rfl
  | cons c cs ih =>
    intro ht
    by_cases hc : TTSText.isSpaceChar c = true
    · cases cs with
      | nil =>
        exfalso
        have := tailClean_getLast ht c (by simp)
        rw [this] at hc
        cases hc
      | cons d cs' =>
        obtain ⟨rfl, hd⟩ := tailClean_head_space ht hc
        have ihr := ih (tailClean_cons ht)
        rw [collapseRunsAux_nonspace hd, List.cons.injEq] at ihr
        rw [collapseRunsAux_space hc, collapseRunsAux_nonspace hd]
        simp [ihr.2]
    · have hc' : TTSText.isSpaceChar c = false := Bool.eq_false_iff.2 hc
      rw [collapseRunsAux_nonspace hc', ih (tailClean_cons ht)]

theorem pstrip_of_clean {t : List Char} (hclean : TTSText.cleanWs t = true) :
    TTSText.pstrip t = t := by
  cases t with
  | nil => rfl
  | cons c cs =>
    rw [TTSText.cleanWs, Bool.and_eq_true, Bool.not_eq_eq_eq_not, Bool.not_true] at hclean
    rw [TTSText.pstrip, List.dropWhile_cons_of_neg (by simp [hclean.1])]
    cases hrev : (c :: cs).reverse with
    | nil => simp at hrev
    | cons d rest =>
      have hd : (c :: cs).getLast? = some d := by
        rw [← List.head?_reverse, hrev]; rfl
      have : TTSText.isSpaceChar d = false :=
        tailClean_getLast hclean.2 d hd
      rw [List.dropWhile_cons_of_neg (by simp [this]), ← hrev,
        List.reverse_reverse]

theorem collapseWs_of_clean {t : List Char} (hclean : TTSText.cleanWs t = true) :
    TTSText.collapseWs t = t := by
  rw [TTSText.collapseWs, pstrip_of_clean hclean]
  apply collapseRunsAux_id_of_clean
  cases t with
  | nil => rfl
  | cons c cs =>
    rw [TTSText.cleanWs, Bool.and_eq_true] at hclean
    exact hclean.2

theorem isDigit_not_space {c : Char} (h : c.isDigit = true) :
    TTSText.isSpaceChar c = false := by
  by_contra hs
  rw [Bool.not_eq_false, TTSText.isSpaceChar] at hs
  simp only [Bool.or_eq_true, beq_iff_eq] at hs
  rcases hs with ((((rfl | rfl) | rfl) | rfl) | rfl) | rfl <;>
    exact absurd h (by decide)

theorem isDigit_not_punct {c : Char} (h : c.isDigit = true) :
    c ∉ ([',', '.', '!', '?'] : List Char) := by
  intro hm
  simp only [List.mem_cons, List.not_mem_nil, or_false] at hm
  rcases hm with rfl | rfl | rfl | rfl <;> exact absurd h (by decide)

theorem numbersTable_values : ∀ p ∈ SoftFemaleTTS.numbersTable,
    p.2 ≠ [] ∧ (∀ c ∈ p.2, c.isDigit = false) ∧
    (∀ c ∈ p.2, TTSText.isSpaceChar c = false) ∧
    (∀ c ∈ p.2, c ∉ ([',', '.', '!', '?'] : List Char)) ∧
    TTSText.flagAfter true p.2 = true ∧ TTSText.flagAfter false p.2 = true := by
  decide

theorem lookup_mem {l : List (Nat × List Char)} {n : Nat} {w : List Char}
    (h : l.lookup n = some w) : (n, w) ∈ l := by
  induction l with
  | nil => cases h
  | cons p t ih =>
    simp only [List.lookup] at h
    cases hb : (n == p.1) with
    | true =>
      rw [hb] at h
      simp only [Option.some.injEq] at h
      have hn : n = p.1 := beq_iff_eq.1 hb
      have : (n, w) = p := by rw [hn, ← h]
      rw [this]
      exact List.mem_cons_self p t
    | false =>
      rw [hb] at h
      exact List.mem_cons_of_mem _ (ih h)

theorem cnw_ne_nil (n : Nat) : SoftFemaleTTS.convert_number_to_words n ≠ [] := by
  rw [SoftFemaleTTS.convert_number_to_words]
  cases h : SoftFemaleTTS.numbersTable.lookup n with
  | none => simpa using toDec_ne_nil n
  | some w =>
    simp only [Option.getD_some]
    exact (numbersTable_values _ (lookup_mem h)).1

theorem cnw_not_space (n : Nat) :
    ∀ c ∈ SoftFemaleTTS.convert_number_to_words n,
      TTSText.isSpaceChar c = false := by
  rw [SoftFemaleTTS.convert_number_to_words]
  cases h : SoftFemaleTTS.numbersTable.lookup n with
  | none =>
    simp only [Option.getD_none]
    exact fun c hc => isDigit_not_space (toDec_digits n c hc)
  | some w =>
    simp only [Option.getD_some]
    exact (numbersTable_values _ (lookup_mem h)).2.2.1

theorem cnw_not_punct (n : Nat) :
    ∀ c ∈ SoftFemaleTTS.convert_number_to_words n,
      c ∉ ([',', '.', '!', '?'] : List Char) := by
  rw [SoftFemaleTTS.convert_number_to_words]
  cases h : SoftFemaleTTS.numbersTable.lookup n with
  | none =>
    simp only [Option.getD_none]
    exact fun c hc => isDigit_not_punct (toDec_digits n c hc)
  | some w =>
    simp only [Option.getD_some]
    exact (numbersTable_values _ (lookup_mem h)).2.2.2.1

theorem runOut_nil_run (prev next : Bool) :
    SoftFemaleTTS.runOut prev [] next = [] := rfl

theorem runOut_ne_nil {prev next : Bool} {run : List Char} (hrun : run ≠ []) :
    SoftFemaleTTS.runOut prev run next ≠ [] := by
  rw [SoftFemaleTTS.runOut, if_neg (by simp [List.isEmpty_iff, hrun])]
  split
  · exact hrun
  · exact cnw_ne_nil _

theorem runOut_not_space {prev next : Bool} {run : List Char}
    (hrun : ∀ d ∈ run, d.isDigit = true) :
    ∀ c ∈ SoftFemaleTTS.runOut prev run next,
      TTSText.isSpaceChar c = false := by
  rw [SoftFemaleTTS.runOut]
  split
  · simp
  · split
    · exact fun c hc => isDigit_not_space (hrun c hc)
    · exact cnw_not_space _

theorem runOut_not_punct {prev next : Bool} {run : List Char}
    (hrun : ∀ d ∈ run, d.isDigit = true) :
    ∀ c ∈ SoftFemaleTTS.runOut prev run next,
      c ∉ ([',', '.', '!', '?'] : List Char) := by
  rw [SoftFemaleTTS.runOut]
  split
  · simp
  · split
    · exact fun c hc => isDigit_not_punct (hrun c hc)
    · exact cnw_not_punct _

theorem runOut_of_flag {prev next : Bool} {run : List Char} (hrun : run ≠ [])
    (h : prev = true ∨ next = true) :
    SoftFemaleTTS.runOut prev run next = run := by
  rw [SoftFemaleTTS.runOut, if_neg (by simp [List.isEmpty_iff, hrun]), if_pos]
  rcases h with rfl | rfl <;> simp

theorem runOut_conv {run : List Char} (hrun : run ≠ []) :
    SoftFemaleTTS.runOut false run false =
      SoftFemaleTTS.convert_number_to_words (TTSText.natVal run) := by
  rw [SoftFemaleTTS.runOut, if_neg (by simp [List.isEmpty_iff, hrun])]
  simp

theorem numScan_nil (prev : Bool) (run : List Char) :
    SoftFemaleTTS.numScan prev run [] = SoftFemaleTTS.runOut prev run false := rfl

theorem flagAfter_nil (b : Bool) : TTSText.flagAfter b [] = b := rfl

theorem flagAfter_cons (b : Bool) (c : Char) (w : List Char) :
    TTSText.flagAfter b (c :: w) = TTSText.flagAfter (TTSText.isWordChar c) w := rfl

theorem numScan_nondigit_append :
    ∀ (w : List Char) (prev : Bool) (t : List Char),
      (∀ a ∈ w, a.isDigit = false) →
      SoftFemaleTTS.numScan prev [] (w ++ t) =
        w ++ SoftFemaleTTS.numScan (TTSText.flagAfter prev w) [] t := by
  intro w
  induction w with
  | nil => intro prev t _; rfl
  | cons c w' ih =>
    intro prev t hw
    have hc : ¬c.isDigit = true := by simp [hw c (by simp)]
    rw [List.cons_append, numScan_cons_nondigit hc, runOut_nil_run,
      List.nil_append, ih _ t fun a ha => hw a (by simp [ha]), flagAfter_cons]
    rfl

theorem numScan_nondigit_id {w : List Char} (hw : ∀ a ∈ w, a.isDigit = false)
    (prev : Bool) : SoftFemaleTTS.numScan prev [] w = w := by
  have h := numScan_nondigit_append w prev [] hw
  rw [List.append_nil] at h
  rw [h, numScan_nil, runOut_nil_run, List.append_nil]

theorem numScan_ne_nil :
    ∀ (t : List Char) (prev : Bool) (run : List Char),
      run ≠ [] ∨ t ≠ [] → (∀ d ∈ run, d.isDigit = true) →
      SoftFemaleTTS.numScan prev run t ≠ [] := by
  intro t
  induction t with
  | nil =>
    intro prev run hor _
    rcases hor with h | h
    · exact runOut_ne_nil h
    · exact absurd rfl h
  | cons c cs ih =>
    intro prev run _ hrun
    by_cases hc : c.isDigit = true
    · rw [numScan_cons_digit hc]
      refine ih prev (run ++ [c]) (Or.inl (by simp)) ?_
      intro d hd
      rcases List.mem_append.1 hd with hd | hd
      · exact hrun d hd
      · rw [List.mem_singleton] at hd; subst hd; exact hc
    · rw [numScan_cons_nondigit hc]
      simp

theorem dropWhile_head_not {p : Char → Bool} :
    ∀ (l : List Char) {e : Char} {es : List Char},
      l.dropWhile p = e :: es → p e = false := by
  intro l
  induction l with
  | nil => intro e es h; cases h
  | cons a l' ih =>
    intro e es h
    by_cases hp : p a = true
    · rw [List.dropWhile_cons_of_pos hp] at h
      exact ih h
    · rw [List.dropWhile_cons_of_neg hp] at h
      cases h
      exact Bool.eq_false_iff.2 hp

theorem digit_decomp {c : Char} {cs : List Char} (hc : c.isDigit = true) :
    ∃ ds rest, c :: cs = ds ++ rest ∧ ds ≠ [] ∧
      (∀ d ∈ ds, d.isDigit = true) ∧
      rest.length ≤ cs.length ∧
      (rest = [] ∨ ∃ e es, rest = e :: es ∧ e.isDigit = false) := by
  refine ⟨(c :: cs).takeWhile (fun d => d.isDigit),
    (c :: cs).dropWhile (fun d => d.isDigit),
    (List.takeWhile_append_dropWhile _ _).symm, ?_, ?_, ?_, ?_⟩
  · rw [List.takeWhile_cons_of_pos hc]
    simp
  · exact fun d hd => List.mem_takeWhile_imp hd
  · rw [List.dropWhile_cons_of_pos hc]
    exact (List.dropWhile_suffix _).length_le
  · cases hr : (c :: cs).dropWhile (fun d => d.isDigit) with
    | nil => exact Or.inl rfl
    | cons e es => exact Or.inr ⟨e, es, rfl, dropWhile_head_not _ hr⟩

theorem numScan_run_start {ds : List Char} (hds : ∀ d ∈ ds, d.isDigit = true)
    (prev : Bool) (t : List Char) :
    SoftFemaleTTS.numScan prev [] (ds ++ t) =
      SoftFemaleTTS.numScan prev ds t := by
  have h := numScan_digits_append hds prev [] t
  rwa [List.nil_append] at h

theorem tailClean_single (a : Char) :
    TTSText.tailClean [a] = !TTSText.isSpaceChar a := rfl

theorem tailClean_cons2 (a b : Char) (l : List Char) :
    TTSText.tailClean (a :: b :: l) =
      ((!TTSText.isSpaceChar a ||
        (a == ' ' && !TTSText.isSpaceChar b)) && TTSText.tailClean (b :: l)) := rfl

theorem tailClean_of_ns :
    ∀ u : List Char, (∀ c ∈ u, TTSText.isSpaceChar c = false) →
      TTSText.tailClean u = true := by
  intro u
  induction u with
  | nil => intro _; rfl
  | cons c u' ih =>
    intro h
    cases u' with
    | nil => rw [tailClean_single, h c (by simp)]; rfl
    | cons d u'' =>
      rw [tailClean_cons2, Bool.and_eq_true]
      refine ⟨?_, ih fun x hx => h x (by simp [hx])⟩
      rw [h c (by simp)]
      rfl

theorem tailClean_append_ns :
    ∀ (R v : List Char), (∀ c ∈ R, TTSText.isSpaceChar c = false) →
      TTSText.tailClean v = true → TTSText.tailClean (R ++ v) = true := by
  intro R
  induction R with
  | nil => intro v _ hv; exact hv
  | cons c R' ih =>
    intro v hR hv
    rw [List.cons_append]
    cases hru : R' ++ v with
    | nil => rw [tailClean_single, hR c (by simp)]; rfl
    | cons d u =>
      rw [tailClean_cons2, Bool.and_eq_true]
      refine ⟨?_, ?_⟩
      · rw [hR c (by simp)]; rfl
      · rw [← hru]
        exact ih v (fun x hx => hR x (by simp [hx])) hv

theorem numScan_head_not_space (t : List Char) (prev : Bool)
    (ht : ∀ d, t.head? = some d → TTSText.isSpaceChar d = false) :
    ∀ y, (SoftFemaleTTS.numScan prev [] t).head? = some y →
      TTSText.isSpaceChar y = false := by
  cases t with
  | nil => intro y hy; cases hy
  | cons c cs =>
    by_cases hc : c.isDigit = true
    · obtain ⟨ds, rest, heq, hne, hdig, -, hrest⟩ := digit_decomp hc
      rw [heq, numScan_run_start hdig]
      rcases hrest with rfl | ⟨e, es, rfl, he⟩
      · rw [numScan_nil]
        intro y hy
        exact runOut_not_space hdig y (List.mem_of_mem_head? (by rw [hy]; rfl))
      · rw [numScan_cons_nondigit (by simp [he])]
        intro y hy
        rw [List.head?_append] at hy
        cases hR : (SoftFemaleTTS.runOut prev ds (TTSText.isWordChar e)).head? with
        | none => exact absurd (List.head?_eq_none_iff.1 hR) (runOut_ne_nil hne)
        | some r =>
          rw [hR] at hy
          simp only [Option.or_some, Option.some.injEq] at hy
          rw [← hy]
          exact runOut_not_space hdig r (List.mem_of_mem_head? (by rw [hR]; rfl))
    · intro y hy
      rw [numScan_cons_nondigit hc, runOut_nil_run, List.nil_append,
        List.head?_cons, Option.some.injEq] at hy
      rw [← hy]
      exact ht c rfl

theorem numScan_noPunct :
    ∀ (t : List Char) (prev : Bool) (run : List Char),
      (∀ d ∈ run, d.isDigit = true) → TTSText.noPunct t →
      TTSText.noPunct (SoftFemaleTTS.numScan prev run t) := by
  intro t
  induction t with
  | nil =>
    intro prev run hrun _
    rw [numScan_nil]
    exact fun c hc => runOut_not_punct hrun c hc
  | cons c cs ih =>
    intro prev run hrun ht
    by_cases hc : c.isDigit = true
    · rw [numScan_cons_digit hc]
      refine ih prev (run ++ [c]) ?_ fun x hx => ht x (by simp [hx])
      intro d hd
      rcases List.mem_append.1 hd with hd | hd
      · exact hrun d hd
      · rw [List.mem_singleton] at hd; subst hd; exact hc
    · rw [numScan_cons_nondigit hc]
      intro x hx
      rcases List.mem_append.1 hx with hx | hx
      · exact runOut_not_punct hrun x hx
      · rcases List.mem_cons.1 hx with rfl | hx
        · exact ht x (by simp)
        · exact ih _ [] (by simp) (fun z hz => ht z (by simp [hz])) x hx

theorem numScan_tailClean :
    ∀ (t : List Char) (prev : Bool) (run : List Char),
      (∀ d ∈ run, d.isDigit = true) → TTSText.tailClean t = true →
      TTSText.tailClean (SoftFemaleTTS.numScan prev run t) = true := by
  intro t
  induction t with
  | nil =>
    intro prev run hrun _
    rw [numScan_nil]
    exact tailClean_of_ns _ (runOut_not_space hrun)
  | cons c cs ih =>
    intro prev run hrun ht
    by_cases hc : c.isDigit = true
    · rw [numScan_cons_digit hc]
      refine ih prev (run ++ [c]) ?_ (tailClean_cons ht)
      intro d hd
      rcases List.mem_append.1 hd with hd | hd
      · exact hrun d hd
      · rw [List.mem_singleton] at hd; subst hd; exact hc
    · rw [numScan_cons_nondigit hc]
      apply tailClean_append_ns _ _ (runOut_not_space hrun)
      cases hz : SoftFemaleTTS.numScan (TTSText.isWordChar c) [] cs with
      | nil =>
        by_cases hcs : cs = []
        · subst hcs; exact ht
        · exact absurd hz (numScan_ne_nil cs _ [] (Or.inr hcs) (by simp))
      | cons y Z' =>
        rw [tailClean_cons2, Bool.and_eq_true]
        constructor
        · by_cases hsc : TTSText.isSpaceChar c = true
          · cases cs with
            | nil =>
              exfalso
              rw [tailClean_single, hsc] at ht
              cases ht
            | cons d cs' =>
              obtain ⟨rfl, hd⟩ := tailClean_head_space ht hsc
              have hy : TTSText.isSpaceChar y = false := by
                refine numScan_head_not_space (d :: cs') _ ?_ y (by rw [hz]; rfl)
                intro d' hd'
                rw [List.head?_cons, Option.some.injEq] at hd'
                subst hd'
                exact hd
              simp [hy]
          · have hc' : TTSText.isSpaceChar c = false := Bool.eq_false_iff.2 hsc
            simp [hc']
        · rw [← hz]
          exact ih (TTSText.isWordChar c) [] (by simp) (tailClean_cons ht)

theorem cnw_eq_of_lookup_some {n : Nat} {w : List Char}
    (h : SoftFemaleTTS.numbersTable.lookup n = some w) :
    SoftFemaleTTS.convert_number_to_words n = w := by
  rw [SoftFemaleTTS.convert_number_to_words, h, Option.getD_some]

theorem cnw_eq_of_lookup_none {n : Nat}
    (h : SoftFemaleTTS.numbersTable.lookup n = none) :
    SoftFemaleTTS.convert_number_to_words n = TTSText.toDec n := by
  rw [SoftFemaleTTS.convert_number_to_words, h, Option.getD_none]

theorem numScan_cnw_id (n : Nat) :
    SoftFemaleTTS.numScan false [] (SoftFemaleTTS.convert_number_to_words n) =
      SoftFemaleTTS.convert_number_to_words n := by
  cases hlk : SoftFemaleTTS.numbersTable.lookup n with
  | some w =>
    rw [cnw_eq_of_lookup_some hlk]
    exact numScan_nondigit_id ((numbersTable_values _ (lookup_mem hlk)).2.1) false
  | none =>
    rw [cnw_eq_of_lookup_none hlk]
    have h := numScan_run_start (toDec_digits n) false []
    rw [List.append_nil] at h
    rw [h, numScan_nil, runOut_conv (toDec_ne_nil n), toDec_natVal,
      cnw_eq_of_lookup_none hlk]

theorem numScan_idem_aux :
    ∀ (t : List Char) (prev : Bool) (run : List Char),
      (∀ d ∈ run, d.isDigit = true) →
      SoftFemaleTTS.numScan prev []
          (SoftFemaleTTS.numScan prev run t) =
        SoftFemaleTTS.numScan prev run t := by
  intro t
  induction t with
  | nil =>
    intro prev run hrun
    rw [numScan_nil]
    by_cases hne : run = []
    · subst hne; rw [runOut_nil_run]; rfl
    · cases prev with
      | true =>
        rw [runOut_of_flag hne (Or.inl rfl)]
        have h := numScan_run_start hrun true []
        rw [List.append_nil] at h
        rw [h, numScan_nil, runOut_of_flag hne (Or.inl rfl)]
      | false =>
        rw [runOut_conv hne]
        exact numScan_cnw_id _
  | cons c cs ih =>
    intro prev run hrun
    by_cases hc : c.isDigit = true
    · rw [numScan_cons_digit hc]
      refine ih prev (run ++ [c]) ?_
      intro d hd
      rcases List.mem_append.1 hd with hd | hd
      · exact hrun d hd
      · rw [List.mem_singleton] at hd; subst hd; exact hc
    · rw [numScan_cons_nondigit hc]
      by_cases hne : run = []
      · subst hne
        rw [runOut_nil_run, List.nil_append, numScan_cons_nondigit hc,
          runOut_nil_run, List.nil_append, ih (TTSText.isWordChar c) [] (by simp)]
      · by_cases hflag : (prev || TTSText.isWordChar c) = true
        · have hor : prev = true ∨ TTSText.isWordChar c = true := by
            have h := hflag
            rw [Bool.or_eq_true] at h
            exact h
          rw [runOut_of_flag hne hor, numScan_run_start hrun,
            numScan_cons_nondigit hc, runOut_of_flag hne hor,
            ih (TTSText.isWordChar c) [] (by simp)]
        · have hp : prev = false ∧ TTSText.isWordChar c = false := by
            rcases Bool.or_eq_false_iff.1 (Bool.eq_false_iff.2 hflag) with ⟨h1, h2⟩
            exact ⟨h1, h2⟩
          obtain ⟨rfl, hw⟩ := hp
          rw [hw, runOut_conv hne]
          cases hlk : SoftFemaleTTS.numbersTable.lookup (TTSText.natVal run) with
          | some v =>
            rw [cnw_eq_of_lookup_some hlk,
              numScan_nondigit_append v false _
                ((numbersTable_values _ (lookup_mem hlk)).2.1),
              (numbersTable_values _ (lookup_mem hlk)).2.2.2.2.2,
              numScan_cons_nondigit hc, hw, runOut_nil_run, List.nil_append,
              ih false [] (by simp)]
          | none =>
            rw [cnw_eq_of_lookup_none hlk,
              numScan_run_start (toDec_digits _),
              numScan_cons_nondigit hc, hw,
              runOut_conv (toDec_ne_nil _), toDec_natVal,
              cnw_eq_of_lookup_none hlk,
              ih false [] (by simp)]

theorem numConvert_idem (s : List Char) :
    SoftFemaleTTS.numConvert (SoftFemaleTTS.numConvert s) =
      SoftFemaleTTS.numConvert s :=
  numScan_idem_aux s false [] (by simp)

theorem numConvert_cleanWs {s : List Char} (h : TTSText.cleanWs s = true) :
    TTSText.cleanWs (SoftFemaleTTS.numConvert s) = true := by
  cases s with
  | nil => rfl
  | cons c cs =>
    rw [TTSText.cleanWs, Bool.and_eq_true, Bool.not_eq_eq_eq_not,
      Bool.not_true] at h
    cases hu : SoftFemaleTTS.numConvert (c :: cs) with
    | nil => rfl
    | cons y u' =>
      rw [TTSText.cleanWs, Bool.and_eq_true]
      constructor
      · have hy : TTSText.isSpaceChar y = false := by
          refine numScan_head_not_space (c :: cs) false ?_ y ?_
          · intro d hd
            rw [List.head?_cons, Option.some.injEq] at hd
            rw [← hd]
            exact h.1
          · rw [show SoftFemaleTTS.numScan false [] (c :: cs) = y :: u' from hu]
            rfl
        rw [hy]
        rfl
      · rw [← hu, SoftFemaleTTS.numConvert]
        exact numScan_tailClean (c :: cs) false [] (by simp) h.2

/-- Claim C3 counterexample: on the input `"a,b"` — already within whitespace
and length policy — normalize is not idempotent: the first application yields
`"a, b"`, and the second inserts one more space after the comma, yielding
`"a,  b"`. -/
theorem normalize_not_idempotent :
    SoftFemaleTTS.preprocess_russian_text
        (SoftFemaleTTS.preprocess_russian_text "a,b".toList) ≠
      SoftFemaleTTS.preprocess_russian_text "a,b".toList := by
  decide

/-- Claim C3 (corrected): normalize is not idempotent on texts containing
sentence or clause punctuation — each application appends one more space
after every `,` `.` `!` `?` (pause insertion runs after whitespace collapsing,
so the space it inserted the previous round is never re-collapsed).
Idempotence does hold on every text that is within whitespace policy (single
plain interior spaces, none at the ends) and contains none of the four
punctuation characters: there the whitespace collapse, pause insertion and
abbreviation expansion are all the identity, and the digit-run conversion is
idempotent. -/
theorem normalize_idempotent_on_clean (s : List Char)
    (hp : TTSText.noPunct s) (hclean : TTSText.cleanWs s = true) :
    SoftFemaleTTS.preprocess_russian_text
        (SoftFemaleTTS.preprocess_russian_text s) =
      SoftFemaleTTS.preprocess_russian_text s := by
  have step : ∀ t, TTSText.noPunct t → TTSText.cleanWs t = true →
      SoftFemaleTTS.preprocess_russian_text t = SoftFemaleTTS.numConvert t := by
    intro t hpt hct
    rw [SoftFemaleTTS.preprocess_russian_text, collapseWs_of_clean hct,
      pauses_id hpt, abbrevExpand_id hpt]
  have h1 := step s hp hclean
  have hpu : TTSText.noPunct (SoftFemaleTTS.numConvert s) :=
    numScan_noPunct s false [] (by simp) hp
  have hcu : TTSText.cleanWs (SoftFemaleTTS.numConvert s) = true :=
    numConvert_cleanWs hclean
  rw [h1, step _ hpu hcu, numConvert_idem]

/-- Witness for C3 at the punctuation-free, whitespace-normal text
`"ab 12"`. -/
theorem normalize_idempotent_on_clean_witness :
    SoftFemaleTTS.preprocess_russian_text
        (SoftFemaleTTS.preprocess_russian_text "ab 12".toList) =
      SoftFemaleTTS.preprocess_russian_text "ab 12".toList :=
  normalize_idempotent_on_clean "ab 12".toList
    (by unfold TTSText.noPunct; decide) (by decide)
